import Mathlib

/-!
# Verification of the Python-MD core (evenmn/Python-MD)

Shallow embedding, in exact rational arithmetic, of the physics core of the
molecular-dynamics code:

* `src/potential.py` — the `LennardJones` potential: `calculateDistanceMatrix`,
  the static `potentialEnergy`, and `__call__` (force kernel, energy, distance
  matrix);
* `src/moleculardynamics.py` — the `MDSolver` integrators (`forwardEuler`,
  `eulerChromer`, `velocityVerlet`) and the `simulate` driver loop;
* `mdsolver/__init__.py` — the observer-task driver loop (`MDSolver.__call__`).

NumPy float arrays are modelled as functions `Fin P → Fin D → ℚ` (dense,
index-addressed) or as `List ℚ` (the flattened, filtered 1-D arrays used by
`calculateDistanceMatrix`).  Floating-point numbers are modelled by exact
rationals; the code's guards against infinities produced by division by a zero
squared distance correspond, in this exact model, to the `ℚ` convention
`x / 0 = 0`, `0 ^ (-n : ℤ) = 0` (the commentary at each definition records the
guard of the source).
-/

namespace PyMD

/-- A `D`-dimensional coordinate vector (one row of a NumPy `(P, D)` array). -/
abbrev Vec (D : ℕ) := Fin D → ℚ

/-- A position (or velocity / acceleration) snapshot: `P` particles in `D`
dimensions, i.e. a NumPy array of shape `(P, D)`. -/
abbrev Positions (P D : ℕ) := Fin P → Vec D

/-- A boundary policy's displacement correction, `boundaries.checkDistance`:
it maps the raw pairwise displacement tensor (shape `(P, P, D)`) to the
corrected one. -/
abbrev DistPolicy (P D : ℕ) := (Fin P → Fin P → Vec D) → (Fin P → Fin P → Vec D)

/-- Modelled from the spec: `Open.checkDistance` of the absent
`mdsolver/boundaryconditions.py` — open boundaries perform no displacement
correction ("Open: identity", spec §4.1). -/
def openCheckDistance (P D : ℕ) : DistPolicy P D := id

/-! ## `LennardJones.calculateDistanceMatrix` (potential.py, lines 39–75) -/

/-- `drAll = x - y` with `x, y` the broadcast copies of `r`, followed by
`drAll = self.boundaries.checkDistance(drAll)`: the boundary-corrected
displacement tensor, `drAll i j = r i - r j` (componentwise) before
correction. -/
def drAll (bc : DistPolicy P D) (r : Positions P D) : Fin P → Fin P → Vec D :=
  bc (fun i j d => r i d - r j d)

/-- `distanceSqrdAll = np.einsum('ijk,ijk->ij', drAll, drAll)`: the dense
`P × P` matrix of corrected squared distances. -/
def distanceSqrdAll (bc : DistPolicy P D) (r : Positions P D) : Fin P → Fin P → ℚ :=
  fun i j => ∑ d, drAll bc r i j d * drAll bc r i j d

/-- `np.triu_indices(par, 1)` in row-major order: the list of strictly
upper-triangular index pairs `(i, j)`, `i < j`. -/
def upperTriPairs (P : ℕ) : List (Fin P × Fin P) :=
  (List.finRange P).flatMap fun i =>
    ((List.finRange P).filter fun j => i < j).map fun j => (i, j)

/-- `distanceSqrdHalf = distanceSqrdAll[upperTri]`: the flattened strictly
upper-triangular part of the squared-distance matrix. -/
def distanceSqrdHalf (bc : DistPolicy P D) (r : Positions P D) : List ℚ :=
  (upperTriPairs P).map fun p => distanceSqrdAll bc r p.1 p.2

/-- `drHalf = drAll[upperTri]`: the flattened strictly upper-triangular part of
the displacement tensor. -/
def drHalf (bc : DistPolicy P D) (r : Positions P D) : List (Vec D) :=
  (upperTriPairs P).map fun p => drAll bc r p.1 p.2

/-- `indices = np.nonzero(distanceSqrdHalf < cutoff*cutoff)`: the positions,
within the flattened upper-triangular array, of the pairs that survive the
cutoff mask (strict `<`). -/
def survivingIndices (bc : DistPolicy P D) (rc : ℚ) (r : Positions P D) : List ℕ :=
  ((distanceSqrdHalf bc r).enum.filter fun p => p.2 < rc * rc).map Prod.fst

/-- `LennardJones.calculateDistanceMatrix`: returns, in source order,
`(distanceSqrdAll, distanceSqrd, dr, indices)` — the dense squared-distance
matrix, the cutoff-filtered flat squared distances
(`distanceSqrdHalf[indices]`), the cutoff-filtered flat displacement vectors
(`drHalf[indices]`), and the surviving index array. -/
def calculateDistanceMatrix (bc : DistPolicy P D) (rc : ℚ) (r : Positions P D) :
    (Fin P → Fin P → ℚ) × List ℚ × List (Vec D) × List ℕ :=
  (distanceSqrdAll bc r,
   (distanceSqrdHalf bc r).filter fun x => x < rc * rc,
   ((upperTriPairs P).filter fun p => distanceSqrdAll bc r p.1 p.2 < rc * rc).map
     (fun p => drAll bc r p.1 p.2),
   survivingIndices bc rc r)

/-! ## `LennardJones.__call__` force kernel (potential.py, lines 98–145) -/

/-- `distancePowSixInv = np.nan_to_num(distanceSqrd ** (-3))`, pointwise on a
squared distance.  In exact arithmetic the only degenerate input is
`d2 = 0`, where `ℚ`'s junk value `0 ^ (-3 : ℤ) = 0` stands in for the
clamped float value. -/
def distancePowSixInv (d2 : ℚ) : ℚ := d2 ^ (-3 : ℤ)

/-- `distancePowTwelveInv = distancePowSixInv ** 2`, pointwise. -/
def distancePowTwelveInv (d2 : ℚ) : ℚ := distancePowSixInv d2 ^ (2 : ℕ)

/-- `factor = np.divide(2*distancePowTwelveInv - distancePowSixInv,
distanceSqrd)` followed by the guard `factor[factor == np.inf] = 0`: in exact
arithmetic the division at `d2 = 0` (the one infinite case) is `ℚ`'s
`0 / 0 = 0`, which is exactly the guarded value. -/
def factor (d2 : ℚ) : ℚ := (2 * distancePowTwelveInv d2 - distancePowSixInv d2) / d2

/-- The per-pair force vector `24 * factor * dr` for the (upper-triangular)
pair `(i, j)`. -/
def pairForce (bc : DistPolicy P D) (r : Positions P D) (i j : Fin P) : Vec D :=
  fun d => 24 * factor (distanceSqrdAll bc r i j) * drAll bc r i j d

/-- The pair `(i, j)` survives the kernel's masks: strictly upper-triangular
(`np.triu_indices(par, 1)`) and strictly within the cutoff
(`distanceSqrdHalf < cutoff*cutoff`). -/
def surviving (bc : DistPolicy P D) (rc : ℚ) (r : Positions P D) (i j : Fin P) : Prop :=
  i < j ∧ distanceSqrdAll bc r i j < rc * rc

instance (bc : DistPolicy P D) (rc : ℚ) (r : Positions P D) (i j : Fin P) :
    Decidable (surviving bc rc r i j) := by
  unfold surviving; infer_instance

/-- The assembled `(P, P, D)` force tensor `force2` (after the flat-index
scatter `force2[c] = force; force2[f] = -force` and the reshape): the pair
force sits at the surviving upper-triangular entries, its negation at their
transposes, zero elsewhere. -/
def forceMatrix (bc : DistPolicy P D) (rc : ℚ) (r : Positions P D) :
    Fin P → Fin P → Vec D :=
  fun i j =>
    if surviving bc rc r i j then pairForce bc r i j
    else if surviving bc rc r j i then (fun d => -pairForce bc r j i d)
    else 0

/-- `force3 = np.sum(force2, axis=1)`: the net force on each particle. -/
def netForce (bc : DistPolicy P D) (rc : ℚ) (r : Positions P D) : Fin P → Vec D :=
  fun i d => ∑ j, forceMatrix bc rc r i j d

/-- The per-pair potential-energy term `distancePowTwelveInv -
distancePowSixInv`, pointwise on a squared distance. -/
def uTerm (d2 : ℚ) : ℚ := distancePowTwelveInv d2 - distancePowSixInv d2

/-- The static `LennardJones.potentialEnergy(u, cutoff)`:
`4 * (np.sum(u) - cutoff**(-12) - cutoff**(-6))`.  The guard
`u[u == np.inf] = 0` has no exact-arithmetic counterpart here: the infinite
entries it clears arise only from a zero (or float-underflowed) squared
distance, and at `d2 = 0` the exact entry `uTerm 0` is already `0`. -/
def potentialEnergy (u : List ℚ) (cutoff : ℚ) : ℚ :=
  4 * (u.sum - cutoff ^ (-12 : ℤ) - cutoff ^ (-6 : ℤ))

/-- The total potential energy computed by `LennardJones.__call__`:
`u = self.potentialEnergy(distancePowTwelveInv - distancePowSixInv,
self.cutoff)`, where the argument array is `uTerm` mapped over the
cutoff-filtered squared distances of `calculateDistanceMatrix`. -/
def LJu (bc : DistPolicy P D) (rc : ℚ) (r : Positions P D) : ℚ :=
  potentialEnergy (((calculateDistanceMatrix bc rc r).2.1).map uTerm) rc

/-- `LennardJones.__call__(r)`: returns, in source order, the net force
array `force3`, the total potential energy `u`, and the dense squared-distance
matrix `distanceSqrdAll`. -/
def LJcall (bc : DistPolicy P D) (rc : ℚ) (r : Positions P D) :
    (Fin P → Vec D) × ℚ × (Fin P → Fin P → ℚ) :=
  (netForce bc rc r, LJu bc rc r, distanceSqrdAll bc r)

/-! ## `MDSolver` integrators (moleculardynamics.py, lines 165–221)

Each integrator method reads `self.r[t]`, `self.v[t]` and writes
`self.r[t+1]`, `self.v[t+1]`; functionally it is a step
`(r, v) ↦ (r', v')`.  The potential is the duck-typed callable parameter
`potential`; to settle how often each scheme evaluates it, every evaluation
`potential(x)` is routed through `potEval`, which also records the argument
`x` in an evaluation log. -/

/-- The `(r, v)` slice of the solver state at one timestep. -/
structure MDState (P D : ℕ) where
  r : Positions P D
  v : Positions P D

/-- The duck-typed `potential` parameter: maps positions to
`(netForce, potentialEnergy, distanceMatrix)`, as `LennardJones.__call__`
does. -/
abbrev Pot (P D : ℕ) :=
  Positions P D → (Fin P → Vec D) × ℚ × (Fin P → Fin P → ℚ)

/-- One evaluation `potential(x)`: returns the triple and logs the argument. -/
def potEval (pot : Pot P D) (x : Positions P D) :
    ((Fin P → Vec D) × ℚ × (Fin P → Fin P → ℚ)) × List (Positions P D) :=
  (pot x, [x])

/-- `MDSolver.forwardEuler(t, potential)`:
`a, u, d = potential(self.r[t])`; `self.v[t+1] = self.v[t] + a*self.dt`;
`self.r[t+1] = self.r[t] + self.v[t]*self.dt`; `return u, d`.
Output: the new state, the returned `(u, d)`, and the evaluation log. -/
def forwardEuler (pot : Pot P D) (dt : ℚ) (s : MDState P D) :
    MDState P D × (ℚ × (Fin P → Fin P → ℚ)) × List (Positions P D) :=
  let e := potEval pot s.r
  let a := e.1.1
  (⟨fun i d => s.r i d + s.v i d * dt,
    fun i d => s.v i d + a i d * dt⟩,
   (e.1.2.1, e.1.2.2), e.2)

/-- `MDSolver.eulerChromer(t, potential)`:
`a, u, d = potential(self.r[t])`; `self.v[t+1] = self.v[t] + a*self.dt`;
`self.r[t+1] = self.r[t] + self.v[t+1]*self.dt`; `return u, d`. -/
def eulerChromer (pot : Pot P D) (dt : ℚ) (s : MDState P D) :
    MDState P D × (ℚ × (Fin P → Fin P → ℚ)) × List (Positions P D) :=
  let e := potEval pot s.r
  let a := e.1.1
  let vNew : Positions P D := fun i d => s.v i d + a i d * dt
  (⟨fun i d => s.r i d + vNew i d * dt, vNew⟩,
   (e.1.2.1, e.1.2.2), e.2)

/-- `MDSolver.velocityVerlet(t, potential)`:
`a, u, d = potential(self.r[t])`;
`self.r[t+1] = self.r[t] + self.v[t]*self.dt + 0.5*a*self.dt**2`;
`a_new, u, d = potential(self.r[t+1])`;
`self.v[t+1] = self.v[t] + 0.5*(a_new + a)*self.dt`; `return u, d`
(`0.5` is written `1/2`).  The returned `(u, d)` are those of the second
evaluation; the log records both evaluation arguments in order. -/
def velocityVerlet (pot : Pot P D) (dt : ℚ) (s : MDState P D) :
    MDState P D × (ℚ × (Fin P → Fin P → ℚ)) × List (Positions P D) :=
  let e := potEval pot s.r
  let a := e.1.1
  let rNew : Positions P D := fun i d => s.r i d + s.v i d * dt + 1/2 * a i d * dt ^ 2
  let e2 := potEval pot rNew
  let aNew := e2.1.1
  (⟨rNew, fun i d => s.v i d + 1/2 * (aNew i d + a i d) * dt⟩,
   (e2.1.2.1, e2.1.2.2), e.2 ++ e2.2)

/-- Modelled from the spec: `Reflective.checkPosition` of the absent
`mdsolver/boundaryconditions.py` — "for any coordinate outside
`[lowerBound, upperBound]`, reflect the coordinate back across the violated
boundary (distance past the boundary is mirrored inward) and negate the
velocity component along that dimension (elastic wall)" (spec §4.1,
single-bounce model).  Used only to witness that the integrators above apply
no such correction. -/
def reflectiveCheckPosition (lo hi : ℚ) (r v : Positions P D) :
    Positions P D × Positions P D :=
  (fun i d =>
    if hi < r i d then 2 * hi - r i d
    else if r i d < lo then 2 * lo - r i d
    else r i d,
   fun i d => if hi < r i d ∨ r i d < lo then -v i d else v i d)

/-- The set denotation of the kernel's two masks: the unordered pairs
`i < j` (from `np.triu_indices(par, 1)`) whose corrected squared distance is
strictly below `cutoff*cutoff` (from `np.nonzero(... < cutoff*cutoff)`). -/
def survivingPairs (bc : DistPolicy P D) (rc : ℚ) (r : Positions P D) :
    Finset (Fin P × Fin P) :=
  Finset.univ.filter fun p => surviving bc rc r p.1 p.2

/-! ## The observer-task driver loop (`MDSolver.__call__`, mdsolver/__init__.py)

`__call__` evaluates the potential once to build the initial state, calls
`task._update(state, 0)` on every task, then runs
`for t in range(self.N): state = integrator(state); for task in tasks:
task._update(state, t)`, and finally calls `task()` (finalization) on every
task.  The embedding records each integrator invocation and each hook
invocation as an event, abstracting the state type. -/

/-- One observable event of the driver loop. -/
inductive DriverEvent where
  | integrate (t : ℕ)
  | update (task : ℕ) (t : ℕ)
  | finalize (task : ℕ)
deriving DecidableEq

/-- The loop index of an `integrate` event, `none` for hook events. -/
def DriverEvent.integrateIdx : DriverEvent → Option ℕ
  | .integrate t => some t
  | _ => none

/-- Whether an event is an `_update` call on task `j`. -/
def DriverEvent.isUpdateOf (j : ℕ) : DriverEvent → Bool
  | .update k _ => k == j
  | _ => false

/-- Whether an event is the finalization call `task()` on task `j`. -/
def DriverEvent.isFinalizeOf (j : ℕ) : DriverEvent → Bool
  | .finalize k => k == j
  | _ => false

/-- The integration loop of `MDSolver.__call__`: performs `n` iterations
starting at loop index `t`; each iteration advances the state once
(`state = integrator(state)`) and then updates every task with the current
loop index. -/
def driverSteps (step : S → S) (numTasks : ℕ) : ℕ → ℕ → S → S × List DriverEvent
  | _, 0, s => (s, [])
  | t, Nat.succ k, s =>
    let s1 := step s
    let rest := driverSteps step numTasks (t + 1) k s1
    (rest.1,
     DriverEvent.integrate t
       :: (((List.range numTasks).map fun j => DriverEvent.update j t) ++ rest.2))

/-- `MDSolver.__call__(potential, integrator, tasks)`: synthetic step-0 update
of every task, the integration loop, then finalization of every task.
Returns the final state and the full event trace. -/
def mdSolverCall (step : S → S) (numTasks N : ℕ) (s0 : S) : S × List DriverEvent :=
  let body := driverSteps step numTasks 0 N s0
  (body.1,
   ((List.range numTasks).map fun j => DriverEvent.update j 0)
     ++ body.2
     ++ ((List.range numTasks).map fun j => DriverEvent.finalize j))

/-- Python's `int()` on a real value: truncation toward zero. -/
def pyInt (q : ℚ) : ℤ := if 0 ≤ q then ⌊q⌋ else ⌈q⌉

/-- `self.N = int(T/dt)` from `MDSolver.__init__`. -/
def solverN (T dt : ℚ) : ℤ := pyInt (T / dt)

/-! ## `MDSolver.simulate` and the final potential-energy recomputation
(moleculardynamics.py, lines 237–287)

The loop stores the per-step potential energies; after the loop, with
`poteng` truthy, the code runs
`dr, d, l, m = potential.calculateDistanceMatrix(self.r[-1])` followed by
`self.u[self.N] = potential.potentialEnergy(m - l)` — a call of the static
two-parameter `potentialEnergy(u, cutoff)` with a single positional
argument.  Python binds positional parameters before running the body, so
the call raises `TypeError`; the embedding models the call protocol
explicitly. -/

/-- A Python value as it appears at the failing call site: scalars, 1-D float
arrays, 2-D arrays (lists of `D`-vectors), index tuples (output of
`np.nonzero`), and the unevaluated result of the NumPy subtraction `m - l`
(kept abstract: the arity error below fires whatever that value is). -/
inductive PyVal (D : ℕ) where
  | scalar (q : ℚ)
  | arr (xs : List ℚ)
  | arr2 (xss : List (Vec D))
  | idxTuple (xs : List ℕ)
  | sub (a b : PyVal D)

/-- Coercion of a `PyVal` to the 1-D array the body of `potentialEnergy`
expects (junk on other shapes; never exercised on the failing path). -/
def pyValToList : PyVal D → List ℚ
  | .arr xs => xs
  | _ => []

/-- Coercion of a `PyVal` to the scalar the body of `potentialEnergy` expects
(junk on other shapes; never exercised on the failing path). -/
def pyValToScalar : PyVal D → ℚ
  | .scalar q => q
  | _ => 0

/-- The Python call protocol of the static two-parameter
`Potential.potentialEnergy(u, cutoff)`: exactly two positional arguments are
bound, any other arity raises `TypeError` before the body runs. -/
def potentialEnergyPyCall (args : List (PyVal D)) : Except String ℚ :=
  match args with
  | [u, cutoff] => .ok (potentialEnergy (pyValToList u) (pyValToScalar cutoff))
  | _ => .error "TypeError: potentialEnergy() missing 1 required positional argument: cutoff"

/-- An integrator as `simulate` consumes it: `integrator(t, potential)` —
here the loop index is irrelevant to the state update, so the parameter is
the potential alone; the result carries the new state, the returned `(u, d)`
and the potential-evaluation log. -/
abbrev Integrator (P D : ℕ) :=
  Pot P D → MDState P D →
    MDState P D × (ℚ × (Fin P → Fin P → ℚ)) × List (Positions P D)

/-- `MDSolver.simulate(potential, integrator, poteng, ...)` with a
`LennardJones(solver, cutoff=rc)` potential, specialised to
`distance=False`, `dumpfile=None` (the code paths irrelevant to the claims):
initial evaluation `a, u, d = potential(self.r[0])`, the `self.u` array with
`self.u[0] = u`, the integration loop storing `self.u[t]`, then — for truthy
`poteng` — the final recomputation
`dr, d, l, m = potential.calculateDistanceMatrix(self.r[-1])`;
`self.u[self.N] = potential.potentialEnergy(m - l)`, a one-argument call of
the two-parameter static method (`m` is the fourth output, the index array;
`l` the third, the displacement vectors).  Returns the energy series, or the
propagated Python exception as `.error`. -/
def simulate (bc : DistPolicy P D) (rc : ℚ) (integrator : Integrator P D)
    (N : ℕ) (s0 : MDState P D) (poteng : Bool) : Except String (List ℚ) :=
  let init := LJcall bc rc s0.r
  if poteng then
    let u0 : List ℚ := (List.replicate (N + 1) 0).set 0 init.2.1
    let run := (List.range N).foldl
      (fun (acc : MDState P D × List ℚ) t =>
        let st := integrator (LJcall bc rc) acc.1
        (st.1, acc.2.set t st.2.1.1)) (s0, u0)
    let q := calculateDistanceMatrix bc rc run.1.r
    match potentialEnergyPyCall
        [PyVal.sub (PyVal.idxTuple q.2.2.2) (PyVal.arr2 q.2.2.1)] with
    | .ok uN => .ok (run.2.set N uN)
    | .error e => .error e
  else
    .ok []

/-! ## Claim theorems -/

/-- **C8.** Under open boundaries the dense squared-distance matrix returned
(third output of `LennardJones.__call__`, first output of
`calculateDistanceMatrix`) is symmetric, has zero diagonal and non-negative
entries, and is the full matrix independently of the cutoff: beyond-cutoff
entries are excluded only from force/energy accumulation, not erased. -/
theorem C8_distance_matrix_invariants (P D : ℕ) (r : Positions P D) (rc rc' : ℚ) :
    (∀ i j, (LJcall (openCheckDistance P D) rc r).2.2 i j
        = (LJcall (openCheckDistance P D) rc r).2.2 j i) ∧
    (∀ i, (LJcall (openCheckDistance P D) rc r).2.2 i i = 0) ∧
    (∀ i j, 0 ≤ (LJcall (openCheckDistance P D) rc r).2.2 i j) ∧
    (LJcall (openCheckDistance P D) rc r).2.2
        = (calculateDistanceMatrix (openCheckDistance P D) rc' r).1 := by
  refine ⟨?_, ?_, ?_, rfl⟩
  · intro i j
    simp only [LJcall, distanceSqrdAll, drAll, openCheckDistance, id]
    refine Finset.sum_congr rfl fun d _ => ?_
    ring
  · intro i
    simp [LJcall, distanceSqrdAll, drAll, openCheckDistance]
  · intro i j
    simp only [LJcall, distanceSqrdAll]
    exact Finset.sum_nonneg fun d _ => mul_self_nonneg _

/-- **C5.** Velocity-Verlet evaluates the potential exactly twice per step —
at `r(t)` and at the proposed `r(t+1)` — the proposed
`r(t+1) = r(t) + v(t)·dt + ½·a(t)·dt²` is computed before the second
evaluation (it is the second evaluation's argument), the new velocity is
`v(t+1) = v(t) + ½·(a(t+1) + a(t))·dt`; forward Euler and Euler-Cromer
evaluate the potential exactly once, at `r(t)`. -/
theorem C5_potential_evaluation_counts (P D : ℕ) (pot : Pot P D) (dt : ℚ)
    (s : MDState P D) :
    (velocityVerlet pot dt s).2.2
      = [s.r, fun i d => s.r i d + s.v i d * dt + 1/2 * (pot s.r).1 i d * dt ^ 2] ∧
    (velocityVerlet pot dt s).1.r
      = (fun i d => s.r i d + s.v i d * dt + 1/2 * (pot s.r).1 i d * dt ^ 2) ∧
    (velocityVerlet pot dt s).1.v
      = (fun i d => s.v i d
          + 1/2 * ((pot ((velocityVerlet pot dt s).1.r)).1 i d + (pot s.r).1 i d) * dt) ∧
    (forwardEuler pot dt s).2.2 = [s.r] ∧
    (eulerChromer pot dt s).2.2 = [s.r] :=
  ⟨rfl, rfl, rfl, rfl, rfl⟩

/-- **C6.** Forward Euler and Euler-Cromer both set
`v(t+1) = v(t) + a(t)·dt` with `a(t)` evaluated at `r(t)`; forward Euler sets
`r(t+1) = r(t) + v(t)·dt` (old velocity), Euler-Cromer sets
`r(t+1) = r(t) + v(t+1)·dt` (new velocity). -/
theorem C6_euler_schemes (P D : ℕ) (pot : Pot P D) (dt : ℚ) (s : MDState P D) :
    (forwardEuler pot dt s).1.v = (fun i d => s.v i d + (pot s.r).1 i d * dt) ∧
    (forwardEuler pot dt s).1.r = (fun i d => s.r i d + s.v i d * dt) ∧
    (eulerChromer pot dt s).1.v = (fun i d => s.v i d + (pot s.r).1 i d * dt) ∧
    (eulerChromer pot dt s).1.r
      = (fun i d => s.r i d + (eulerChromer pot dt s).1.v i d * dt) :=
  ⟨rfl, rfl, rfl, rfl⟩

/-- **C4, counterexample.** A single particle in one dimension at position
`1.9` with velocity `1`, box `[0, 2]`, `dt = 1/2`, forward Euler under the
Lennard-Jones potential: the new authoritative position is the raw proposed
`2.4`, while the boundary-corrected (reflected) position would be `1.6` —
so the integrator does *not* apply the boundary position correction before
`r(t+1)` becomes the new authoritative state. -/
theorem C4_counterexample :
    ((forwardEuler (LJcall (openCheckDistance 1 1) 3) (1/2)
        ⟨fun _ _ => 19/10, fun _ _ => 1⟩).1.r 0 0 = 12/5) ∧
    ((reflectiveCheckPosition 0 2
        ((forwardEuler (LJcall (openCheckDistance 1 1) 3) (1/2)
          ⟨fun _ _ => 19/10, fun _ _ => 1⟩).1.r)
        ((forwardEuler (LJcall (openCheckDistance 1 1) 3) (1/2)
          ⟨fun _ _ => 19/10, fun _ _ => 1⟩).1.v)).1 0 0 = 8/5) ∧
    (12/5 : ℚ) ≠ 8/5 := by
  refine ⟨by norm_num [forwardEuler, potEval], ?_, by norm_num⟩
  have hr : (forwardEuler (LJcall (openCheckDistance 1 1) 3) (1/2)
      (⟨fun _ _ => 19/10, fun _ _ => 1⟩ : MDState 1 1)).1.r 0 0 = 12/5 := by
    norm_num [forwardEuler, potEval]
  simp only [reflectiveCheckPosition, hr]
  norm_num

/-- **C4, amended.** In `moleculardynamics.py` none of the three integrators
applies any boundary position correction: the raw proposed `r(t+1)`
(`r + v·dt`, `r + v(t+1)·dt`, `r + v·dt + ½·a·dt²` respectively) becomes the
new authoritative state unchanged, and velocity-Verlet's second potential
evaluation takes exactly that raw, uncorrected `r(t+1)` as its argument. -/
theorem C4_amended_no_position_correction (P D : ℕ) (pot : Pot P D) (dt : ℚ)
    (s : MDState P D) :
    (forwardEuler pot dt s).1.r = (fun i d => s.r i d + s.v i d * dt) ∧
    (eulerChromer pot dt s).1.r
      = (fun i d => s.r i d + (eulerChromer pot dt s).1.v i d * dt) ∧
    (velocityVerlet pot dt s).1.r
      = (fun i d => s.r i d + s.v i d * dt + 1/2 * (pot s.r).1 i d * dt ^ 2) ∧
    (velocityVerlet pot dt s).2.2.getLast? = some ((velocityVerlet pot dt s).1.r) :=
  ⟨rfl, rfl, rfl, rfl⟩

/-- **C10.** For every run of `MDSolver.simulate` with a truthy `poteng` flag
and a Lennard-Jones potential (all per-step evaluations are total here), the
call never returns normally: the final recomputation calls the static
two-parameter `potentialEnergy(u, cutoff)` with the single argument `m - l`
(fourth output minus third output of `calculateDistanceMatrix`), so a
`TypeError` propagates and the final slot `self.u[N]` (assigned only in the
`.ok` branch) is never assigned. -/
theorem C10_simulate_poteng_raises (P D : ℕ) (bc : DistPolicy P D) (rc : ℚ)
    (integrator : Integrator P D) (N : ℕ) (s0 : MDState P D) :
    simulate bc rc integrator N s0 true
      = Except.error
          "TypeError: potentialEnergy() missing 1 required positional argument: cutoff" :=
  rfl

/-- **C2.** The assembled pairwise force tensor is antisymmetric — the pair
force `24 * factor * dr` of a surviving pair `i < j` is scattered to entry
`(i, j)` and its negation to `(j, i)`, so `F(i,j) = -F(j,i)` for *all* pairs
— and consequently (here in particular under the open-boundary identity
correction, and in exact arithmetic) the per-particle net forces (row sums,
the first output of `LennardJones.__call__`) sum to the zero vector. -/
theorem C2_force_antisymmetry (P D : ℕ) (bc : DistPolicy P D) (rc : ℚ)
    (r : Positions P D) :
    (∀ i j d, forceMatrix bc rc r i j d = -forceMatrix bc rc r j i d) ∧
    (∀ d, ∑ i, (LJcall bc rc r).1 i d = 0) := by
  have hA : ∀ i j d, forceMatrix bc rc r i j d = -forceMatrix bc rc r j i d := by
    intro i j d
    by_cases h1 : surviving bc rc r i j
    · have h2 : ¬surviving bc rc r j i := fun hc =>
        absurd (h1.1.trans hc.1) (lt_irrefl i)
      simp [forceMatrix, h1, h2]
    · by_cases h2 : surviving bc rc r j i
      · simp [forceMatrix, h1, h2]
      · simp [forceMatrix, h1, h2]
  refine ⟨hA, fun d => ?_⟩
  have hswap : ∑ i, ∑ j, forceMatrix bc rc r i j d
      = ∑ j, ∑ i, forceMatrix bc rc r i j d := Finset.sum_comm
  have hneg : ∑ j, ∑ i, forceMatrix bc rc r i j d
      = -∑ i, ∑ j, forceMatrix bc rc r i j d := by
    rw [← Finset.sum_neg_distrib]
    refine Finset.sum_congr rfl fun j _ => ?_
    rw [← Finset.sum_neg_distrib]
    exact Finset.sum_congr rfl fun i _ => by rw [hA i j d]
  have hS : ∑ i, ∑ j, forceMatrix bc rc r i j d = 0 := by
    have := hswap.trans hneg
    linarith
  simpa [LJcall, netForce] using hS

/-- Membership in the upper-triangular pair list is exactly `i < j`. -/
theorem mem_upperTriPairs {P : ℕ} {p : Fin P × Fin P} :
    p ∈ upperTriPairs P ↔ p.1 < p.2 := by
  constructor
  · intro hp
    obtain ⟨i, -, hp2⟩ := List.mem_flatMap.mp hp
    obtain ⟨j, hj, rfl⟩ := List.mem_map.mp hp2
    exact of_decide_eq_true (List.mem_filter.mp hj).2
  · intro h
    refine List.mem_flatMap.mpr ⟨p.1, List.mem_finRange _, ?_⟩
    refine List.mem_map.mpr ⟨p.2, ?_, rfl⟩
    exact List.mem_filter.mpr ⟨List.mem_finRange _, decide_eq_true h⟩

/-- The upper-triangular pair list has no duplicates. -/
theorem nodup_upperTriPairs (P : ℕ) : (upperTriPairs P).Nodup := by
  refine List.nodup_flatMap.2 ⟨?_, ?_⟩
  · intro i _
    exact ((List.nodup_finRange P).filter _).map fun a b h => (Prod.ext_iff.mp h).2
  · refine (List.nodup_finRange P).imp ?_
    intro i₁ i₂ hne a ha₁ ha₂
    simp only [List.mem_map, List.mem_filter] at ha₁ ha₂
    obtain ⟨j₁, -, rfl⟩ := ha₁
    obtain ⟨j₂, -, h2⟩ := ha₂
    exact hne (Prod.ext_iff.mp h2).1.symm

/-- The total potential energy of `LennardJones.__call__`, re-expressed as a
sum over the surviving-pair set: the flattened, filtered NumPy reduction
equals the `Finset` sum over `survivingPairs`, and the global cutoff shift
factors out as `-4·(rc⁻¹² + rc⁻⁶)`. -/
theorem LJu_eq_sum (bc : DistPolicy P D) (rc : ℚ) (r : Positions P D) :
    LJu bc rc r
      = 4 * (∑ p in survivingPairs bc rc r, uTerm (distanceSqrdAll bc r p.1 p.2))
        - 4 * (rc ^ (-12 : ℤ) + rc ^ (-6 : ℤ)) := by
  have hfilter :
      (distanceSqrdHalf bc r).filter (fun x => x < rc * rc)
        = ((upperTriPairs P).filter
            (fun p => distanceSqrdAll bc r p.1 p.2 < rc * rc)).map
            (fun p => distanceSqrdAll bc r p.1 p.2) := by
    unfold distanceSqrdHalf
    rw [List.filter_map]
    rfl
  have hnodup : ((upperTriPairs P).filter
      (fun p => decide (distanceSqrdAll bc r p.1 p.2 < rc * rc))).Nodup :=
    (nodup_upperTriPairs P).filter _
  have htoFinset : ((upperTriPairs P).filter
      (fun p => decide (distanceSqrdAll bc r p.1 p.2 < rc * rc))).toFinset
      = survivingPairs bc rc r := by
    ext p
    simp [List.mem_filter, mem_upperTriPairs, survivingPairs, surviving,
      and_comm]
  have hsum := List.sum_toFinset
    (fun p : Fin P × Fin P => uTerm (distanceSqrdAll bc r p.1 p.2)) hnodup
  rw [htoFinset] at hsum
  show potentialEnergy (((calculateDistanceMatrix bc rc r).2.1).map uTerm) rc = _
  have hlist : ((calculateDistanceMatrix bc rc r).2.1).map uTerm
      = ((upperTriPairs P).filter
          (fun p => decide (distanceSqrdAll bc r p.1 p.2 < rc * rc))).map
          (fun p => uTerm (distanceSqrdAll bc r p.1 p.2)) := by
    show ((distanceSqrdHalf bc r).filter (fun x => x < rc * rc)).map uTerm = _
    rw [hfilter, List.map_map]
    rfl
  rw [hlist, potentialEnergy, ← hsum]
  ring

/-- The per-pair energy summand, with the degenerate (float-infinite) case
made explicit: `uTerm d2` is `0` at `d2 = 0` and
`(d²)⁻⁶ − (d²)⁻³` otherwise. -/
theorem uTerm_eq_ite (d2 : ℚ) :
    uTerm d2 = if d2 = 0 then 0 else d2 ^ (-6 : ℤ) - d2 ^ (-3 : ℤ) := by
  unfold uTerm distancePowTwelveInv distancePowSixInv
  by_cases h : d2 = 0
  · subst h
    rw [if_pos rfl, zero_zpow _ (by norm_num)]
    norm_num
  · rw [if_neg h, ← zpow_natCast (d2 ^ (-3 : ℤ)) 2, ← zpow_mul]
    norm_num

/-- **C1.** The scalar potential energy returned by `LennardJones.__call__`
equals `4` times the sum, over the surviving unordered pairs `i < j`
(corrected squared distance strictly below `rc²`), of
`(d²)⁻⁶ − (d²)⁻³` with the degenerate (infinite) terms replaced by zero,
minus `4·(rc⁻¹² + rc⁻⁶)`: the cutoff shift is applied exactly once globally,
not once per pair. -/
theorem C1_total_potential_energy (P D : ℕ) (bc : DistPolicy P D) (rc : ℚ)
    (r : Positions P D) :
    (LJcall bc rc r).2.1
      = 4 * (∑ p in survivingPairs bc rc r,
          if distanceSqrdAll bc r p.1 p.2 = 0 then 0
          else (distanceSqrdAll bc r p.1 p.2) ^ (-6 : ℤ)
            - (distanceSqrdAll bc r p.1 p.2) ^ (-3 : ℤ))
        - 4 * (rc ^ (-12 : ℤ) + rc ^ (-6 : ℤ)) := by
  have h : (LJcall bc rc r).2.1 = LJu bc rc r := rfl
  rw [h, LJu_eq_sum]
  congr 2
  exact Finset.sum_congr rfl fun p _ => uTerm_eq_ite _

/-- **C3.** A pair `i < j` whose corrected squared separation is `≥ rc²`
contributes exactly zero to every particle's net force — both of its entries
in the assembled force tensor are zero — and exactly zero to the summed pair
potential energy: it is not a surviving pair, and erasing it from the
surviving-pair set leaves the total energy unchanged. -/
theorem C3_cutoff_exclusion (P D : ℕ) (bc : DistPolicy P D) (rc : ℚ)
    (r : Positions P D) (i j : Fin P) (hij : i < j)
    (h : rc * rc ≤ distanceSqrdAll bc r i j) :
    forceMatrix bc rc r i j = 0 ∧ forceMatrix bc rc r j i = 0 ∧
    (i, j) ∉ survivingPairs bc rc r ∧
    LJu bc rc r
      = 4 * (∑ p in (survivingPairs bc rc r).erase (i, j),
          uTerm (distanceSqrdAll bc r p.1 p.2))
        - 4 * (rc ^ (-12 : ℤ) + rc ^ (-6 : ℤ)) := by
  have hns : ¬surviving bc rc r i j := fun hs => absurd hs.2 (not_lt.mpr h)
  have hnsr : ¬surviving bc rc r j i := fun hs =>
    absurd (hij.trans hs.1) (lt_irrefl i)
  have hnotmem : (i, j) ∉ survivingPairs bc rc r := by
    simp [survivingPairs, hns]
  refine ⟨by simp [forceMatrix, hns, hnsr], by simp [forceMatrix, hns, hnsr],
    hnotmem, ?_⟩
  rw [Finset.erase_eq_of_not_mem hnotmem]
  exact LJu_eq_sum bc rc r

/-- Witness for C3: two particles in one dimension at `0` and `4`, cutoff
`3`: their squared separation `16` is at least `9 = rc²`, so the pair is
masked out of force and energy. -/
theorem C3_cutoff_exclusion_witness :
    forceMatrix (openCheckDistance 2 1) 3 (fun i _ => if i = 0 then 0 else 4) 0 1 = 0 ∧
    forceMatrix (openCheckDistance 2 1) 3 (fun i _ => if i = 0 then 0 else 4) 1 0 = 0 ∧
    ((0 : Fin 2), (1 : Fin 2))
        ∉ survivingPairs (openCheckDistance 2 1) 3 (fun i _ => if i = 0 then 0 else 4) ∧
    LJu (openCheckDistance 2 1) 3 (fun i _ => if i = 0 then 0 else 4)
      = 4 * (∑ p in (survivingPairs (openCheckDistance 2 1) 3
            (fun i _ => if i = 0 then 0 else 4)).erase (0, 1),
          uTerm (distanceSqrdAll (openCheckDistance 2 1)
            (fun i _ => if i = 0 then 0 else 4) p.1 p.2))
        - 4 * ((3 : ℚ) ^ (-12 : ℤ) + (3 : ℚ) ^ (-6 : ℤ)) :=
  C3_cutoff_exclusion 2 1 (openCheckDistance 2 1) 3
    (fun i _ => if i = 0 then 0 else 4) 0 1 (by decide)
    (by norm_num [distanceSqrdAll, drAll, openCheckDistance, Fin.sum_univ_one])

/-- **C7.** Divisions at a degenerate (zero) squared distance — the exact
counterpart of the float kernel's infinity-producing divisions — yield a zero
contribution: the scalar force factor is zero (so the pair force vector is
zero before scattering) and the per-pair energy term is zero before summing,
so nothing degenerate propagates into the net forces or the total energy. -/
theorem C7_degenerate_divisions_zeroed (P D : ℕ) (bc : DistPolicy P D)
    (r : Positions P D) (i j : Fin P)
    (h : distanceSqrdAll bc r i j = 0) :
    factor (distanceSqrdAll bc r i j) = 0 ∧
    (∀ d, pairForce bc r i j d = 0) ∧
    uTerm (distanceSqrdAll bc r i j) = 0 := by
  have h3 : (0 : ℚ) ^ (-3 : ℤ) = 0 := zero_zpow _ (by norm_num)
  refine ⟨?_, ?_, ?_⟩
  · rw [h]; simp [factor, distancePowTwelveInv, distancePowSixInv, h3]
  · intro d
    simp [pairForce, h, factor, distancePowTwelveInv, distancePowSixInv, h3]
  · rw [h]; simp [uTerm, distancePowTwelveInv, distancePowSixInv, h3]

/-- Witness for C7: two coincident particles (both at the origin) in one
dimension have squared distance `0`, and their factor, pair force and energy
term are all zero. -/
theorem C7_degenerate_divisions_zeroed_witness :
    factor (distanceSqrdAll (openCheckDistance 2 1) (fun _ _ => 0) 0 1) = 0 ∧
    (∀ d, pairForce (openCheckDistance 2 1) (fun _ _ => 0) 0 1 d = 0) ∧
    uTerm (distanceSqrdAll (openCheckDistance 2 1) (fun _ _ => 0) 0 1) = 0 :=
  C7_degenerate_divisions_zeroed 2 1 (openCheckDistance 2 1) (fun _ _ => 0) 0 1
    (by norm_num [distanceSqrdAll, drAll, openCheckDistance, Fin.sum_univ_one])

/-- The loop's final state: `n` iterations of `state = integrator(state)`. -/
theorem driverSteps_fst {S : Type} (step : S → S) (k n : ℕ) :
    ∀ (t : ℕ) (s : S), (driverSteps step k t n s).1 = step^[n] s := by
  induction n with
  | zero => intro t s; rfl
  | succ n ih =>
      intro t s
      show (driverSteps step k (t + 1) n (step s)).1 = _
      rw [ih, Function.iterate_succ_apply]

/-- The integrator invocations of the loop, in order: loop indices
`t, t+1, …, t+n-1`. -/
theorem driverSteps_integrates {S : Type} (step : S → S) (k n : ℕ) :
    ∀ (t : ℕ) (s : S),
      (driverSteps step k t n s).2.filterMap DriverEvent.integrateIdx
        = List.range' t n := by
  induction n with
  | zero => intro t s; rfl
  | succ n ih =>
      intro t s
      show (DriverEvent.integrate t
          :: (((List.range k).map fun j => DriverEvent.update j t)
            ++ (driverSteps step k (t + 1) n (step s)).2)).filterMap
          DriverEvent.integrateIdx = _
      rw [List.filterMap_cons, List.filterMap_append, ih]
      have hupd : ((List.range k).map fun j => DriverEvent.update j t).filterMap
          DriverEvent.integrateIdx = [] := by
        rw [List.filterMap_map]
        exact List.filterMap_eq_nil_iff.mpr fun a _ => rfl
      rw [hupd]
      rfl

/-- Each loop iteration updates task `j` (for `j < k`) exactly once. -/
theorem driverSteps_countP_update {S : Type} (step : S → S) (k j : ℕ)
    (hj : j < k) (n : ℕ) :
    ∀ (t : ℕ) (s : S),
      (driverSteps step k t n s).2.countP (DriverEvent.isUpdateOf j) = n := by
  induction n with
  | zero => intro t s; rfl
  | succ n ih =>
      intro t s
      show (DriverEvent.integrate t
          :: (((List.range k).map fun x => DriverEvent.update x t)
            ++ (driverSteps step k (t + 1) n (step s)).2)).countP
          (DriverEvent.isUpdateOf j) = n + 1
      have h1 : ((List.range k).map fun x => DriverEvent.update x t).countP
          (DriverEvent.isUpdateOf j) = 1 := by
        rw [List.countP_map]
        have hc : (DriverEvent.isUpdateOf j ∘ fun x => DriverEvent.update x t)
            = fun x => x == j := by
          funext x; rfl
        rw [hc]
        exact List.count_eq_one_of_mem (List.nodup_range k) (List.mem_range.mpr hj)
      rw [List.countP_cons_of_neg _ _ (by simp [DriverEvent.isUpdateOf]),
        List.countP_append, h1, ih]
      omega

/-- The loop itself performs no finalization. -/
theorem driverSteps_countP_finalize {S : Type} (step : S → S) (k j n : ℕ) :
    ∀ (t : ℕ) (s : S),
      (driverSteps step k t n s).2.countP (DriverEvent.isFinalizeOf j) = 0 := by
  induction n with
  | zero => intro t s; rfl
  | succ n ih =>
      intro t s
      show (DriverEvent.integrate t
          :: (((List.range k).map fun x => DriverEvent.update x t)
            ++ (driverSteps step k (t + 1) n (step s)).2)).countP
          (DriverEvent.isFinalizeOf j) = 0
      have h1 : ((List.range k).map fun x => DriverEvent.update x t).countP
          (DriverEvent.isFinalizeOf j) = 0 := by
        rw [List.countP_map]
        exact List.countP_eq_zero.mpr fun a _ => by simp [DriverEvent.isFinalizeOf]
      rw [List.countP_cons_of_neg _ _ (by simp [DriverEvent.isFinalizeOf]),
        List.countP_append, h1, ih]

/-- Each loop iteration emits `1 + numTasks` events. -/
theorem driverSteps_length {S : Type} (step : S → S) (k n : ℕ) :
    ∀ (t : ℕ) (s : S), (driverSteps step k t n s).2.length = n * (1 + k) := by
  induction n with
  | zero => intro t s; rw [Nat.zero_mul]; rfl
  | succ n ih =>
      intro t s
      show (DriverEvent.integrate t
          :: (((List.range k).map fun x => DriverEvent.update x t)
            ++ (driverSteps step k (t + 1) n (step s)).2)).length = (n + 1) * (1 + k)
      rw [List.length_cons, List.length_append, List.length_map,
        List.length_range, ih]
      ring

/-- **C9.** With positive total time `T` and timestep `dt`, the driver's step
count `int(T/dt)` is `⌊T/dt⌋ = N`, and the run of `MDSolver.__call__`
performs exactly `N` integrator invocations with loop indices
`t = 0, 1, …, N-1` in order, each advancing the state by exactly one step
(final state `= step^[N] s0`); every task's `_update` hook fires `N + 1`
times — once for the synthetic step 0 before the loop (the first `numTasks`
events) and once after each of the `N` steps — and every task is finalized
exactly once, after the loop (the events past position
`numTasks + N·(1 + numTasks)`). -/
theorem C9_driver_semantics {S : Type} (step : S → S) (numTasks : ℕ) (s0 : S)
    (T dt : ℚ) (hT : 0 < T) (hdt : 0 < dt) :
    solverN T dt = ⌊T / dt⌋ ∧
    ((mdSolverCall step numTasks (solverN T dt).toNat s0).2.filterMap
        DriverEvent.integrateIdx = List.range (solverN T dt).toNat) ∧
    ((mdSolverCall step numTasks (solverN T dt).toNat s0).1
        = step^[(solverN T dt).toNat] s0) ∧
    (∀ j, j < numTasks →
      (mdSolverCall step numTasks (solverN T dt).toNat s0).2.countP
          (DriverEvent.isUpdateOf j) = (solverN T dt).toNat + 1) ∧
    (∀ j, j < numTasks →
      (mdSolverCall step numTasks (solverN T dt).toNat s0).2.countP
          (DriverEvent.isFinalizeOf j) = 1) ∧
    ((mdSolverCall step numTasks (solverN T dt).toNat s0).2.take numTasks
        = (List.range numTasks).map fun j => DriverEvent.update j 0) ∧
    ((mdSolverCall step numTasks (solverN T dt).toNat s0).2.drop
          (numTasks + (solverN T dt).toNat * (1 + numTasks))
        = (List.range numTasks).map fun j => DriverEvent.finalize j) := by
  have hfloor : solverN T dt = ⌊T / dt⌋ := by
    unfold solverN pyInt
    exact if_pos (div_nonneg hT.le hdt.le)
  set n := (solverN T dt).toNat with hn
  have hupd0 : ∀ j, j < numTasks →
      ((List.range numTasks).map fun x => DriverEvent.update x 0).countP
        (DriverEvent.isUpdateOf j) = 1 := by
    intro j hj
    rw [List.countP_map]
    have hc : (DriverEvent.isUpdateOf j ∘ fun x => DriverEvent.update x 0)
        = fun x => x == j := by
      funext x; rfl
    rw [hc]
    exact List.count_eq_one_of_mem (List.nodup_range numTasks) (List.mem_range.mpr hj)
  have hfin1 : ∀ j, j < numTasks →
      ((List.range numTasks).map fun x => DriverEvent.finalize x).countP
        (DriverEvent.isFinalizeOf j) = 1 := by
    intro j hj
    rw [List.countP_map]
    have hc : (DriverEvent.isFinalizeOf j ∘ fun x => DriverEvent.finalize x)
        = fun x => x == j := by
      funext x; rfl
    rw [hc]
    exact List.count_eq_one_of_mem (List.nodup_range numTasks) (List.mem_range.mpr hj)
  refine ⟨hfloor, ?_, ?_, ?_, ?_, ?_, ?_⟩
  · show (((List.range numTasks).map fun j => DriverEvent.update j 0)
        ++ (driverSteps step numTasks 0 n s0).2
        ++ ((List.range numTasks).map fun j => DriverEvent.finalize j)).filterMap
        DriverEvent.integrateIdx = List.range n
    rw [List.filterMap_append, List.filterMap_append, driverSteps_integrates]
    have h1 : ((List.range numTasks).map fun j => DriverEvent.update j 0).filterMap
        DriverEvent.integrateIdx = [] := by
      rw [List.filterMap_map]
      exact List.filterMap_eq_nil_iff.mpr fun a _ => rfl
    have h2 : ((List.range numTasks).map fun j => DriverEvent.finalize j).filterMap
        DriverEvent.integrateIdx = [] := by
      rw [List.filterMap_map]
      exact List.filterMap_eq_nil_iff.mpr fun a _ => rfl
    rw [h1, h2, List.range_eq_range']
    simp
  · exact driverSteps_fst step numTasks n 0 s0
  · intro j hj
    show (((List.range numTasks).map fun x => DriverEvent.update x 0)
        ++ (driverSteps step numTasks 0 n s0).2
        ++ ((List.range numTasks).map fun x => DriverEvent.finalize x)).countP
        (DriverEvent.isUpdateOf j) = n + 1
    have h2 : ((List.range numTasks).map fun x => DriverEvent.finalize x).countP
        (DriverEvent.isUpdateOf j) = 0 :=
      List.countP_eq_zero.mpr fun a ha => by
        obtain ⟨x, -, rfl⟩ := List.mem_map.mp ha
        simp [DriverEvent.isUpdateOf]
    rw [List.countP_append, List.countP_append,
      driverSteps_countP_update step numTasks j hj, hupd0 j hj, h2]
    omega
  · intro j hj
    show (((List.range numTasks).map fun x => DriverEvent.update x 0)
        ++ (driverSteps step numTasks 0 n s0).2
        ++ ((List.range numTasks).map fun x => DriverEvent.finalize x)).countP
        (DriverEvent.isFinalizeOf j) = 1
    have h1 : ((List.range numTasks).map fun x => DriverEvent.update x 0).countP
        (DriverEvent.isFinalizeOf j) = 0 :=
      List.countP_eq_zero.mpr fun a ha => by
        obtain ⟨x, -, rfl⟩ := List.mem_map.mp ha
        simp [DriverEvent.isFinalizeOf]
    rw [List.countP_append, List.countP_append,
      driverSteps_countP_finalize step numTasks j n, hfin1 j hj, h1]
  · show ((((List.range numTasks).map fun j => DriverEvent.update j 0)
        ++ (driverSteps step numTasks 0 n s0).2)
        ++ ((List.range numTasks).map fun j => DriverEvent.finalize j)).take
        numTasks = _
    rw [List.append_assoc]
    exact List.take_left' (by rw [List.length_map, List.length_range])
  · show ((((List.range numTasks).map fun j => DriverEvent.update j 0)
        ++ (driverSteps step numTasks 0 n s0).2)
        ++ ((List.range numTasks).map fun j => DriverEvent.finalize j)).drop
        (numTasks + n * (1 + numTasks)) = _
    exact List.drop_left' (by
      rw [List.length_append, List.length_map, List.length_range,
        driverSteps_length])

/-- Witness for C9: `T = 1`, `dt = 1/2` (both positive) give `N = 2`; with
one task and the successor map as integrator the trace contains exactly the
integrator invocations `t = 0, 1`. -/
theorem C9_driver_semantics_witness :
    solverN 1 (1/2) = ⌊(1 : ℚ) / (1/2)⌋ ∧
    (mdSolverCall Nat.succ 1 (solverN 1 (1/2)).toNat 0).2.filterMap
        DriverEvent.integrateIdx = List.range (solverN 1 (1/2)).toNat :=
  ⟨(C9_driver_semantics Nat.succ 1 0 1 (1/2) (by norm_num) (by norm_num)).1,
   (C9_driver_semantics Nat.succ 1 0 1 (1/2) (by norm_num) (by norm_num)).2.1⟩

end PyMD
